import Mathlib

set_option maxRecDepth 100000

/-!
Verification of the DES block-cipher core of the IoT water-tank firmware
(`src/esp32/des_crypto.py`).  The Python source is shallowly embedded:
bytes and byte strings become `List ℕ` (each element < 256), Python
arbitrary-precision non-negative integers become `ℕ`, 32-bit masking is
explicit (`&&& 0xFFFFFFFF`), and fallible operations return
`Except PyErr`.  Definitions mirror the source line by line and keep the
names of the source.
-/

namespace DesCrypto

/-- Errors raised by the Python code.  Each constructor corresponds to one
concrete `raise` site (or built-in exception) reachable in
`des_crypto.py`; the module defines no other failure values. -/
inductive PyErr : Type
  /-- Python `ZeroDivisionError`, raised by `key_bytes[i % len(key_bytes)]`
  in `prepare_key` when the passphrase encodes to zero bytes. -/
  | zeroDivisionError : PyErr
  /-- Python `ValueError` with message Invalid padding, raised in `remove_padding`. -/
  | invalidPadding : PyErr
  /-- Python `ValueError` with message Invalid ciphertext length, raised in `des_decrypt`. -/
  | invalidCiphertextLength : PyErr
  /-- Python `ValueError` raised by `int(chunk, 16)` in `hex_to_bytes` when a
  1- or 2-character chunk is not a valid base-16 literal. -/
  | malformedHexChunk : PyErr
  /-- Python `ValueError` raised by `bytearray.append` in `hex_to_bytes` when the
  parsed chunk value is negative (e.g. chunk `"-5"`). -/
  | negativeByte : PyErr
  /-- Python `UnicodeDecodeError` from `bytes.decode` with encoding utf-8. -/
  | unicodeDecodeError : PyErr
  deriving DecidableEq, Repr

/-! ## The constant tables (ROM data of `des_crypto.py`, lines 12-134) -/

/-- Table `IP` (source lines 12-21). -/
def IP : List ℕ := [
  58, 50, 42, 34, 26, 18, 10, 2,
  60, 52, 44, 36, 28, 20, 12, 4,
  62, 54, 46, 38, 30, 22, 14, 6,
  64, 56, 48, 40, 32, 24, 16, 8,
  57, 49, 41, 33, 25, 17, 9, 1,
  59, 51, 43, 35, 27, 19, 11, 3,
  61, 53, 45, 37, 29, 21, 13, 5,
  63, 55, 47, 39, 31, 23, 15, 7]

/-- Table `FP` (source lines 23-32). -/
def FP : List ℕ := [
  40, 8, 48, 16, 56, 24, 64, 32,
  39, 7, 47, 15, 55, 23, 63, 31,
  38, 6, 46, 14, 54, 22, 62, 30,
  37, 5, 45, 13, 53, 21, 61, 29,
  36, 4, 44, 12, 52, 20, 60, 28,
  35, 3, 43, 11, 51, 19, 59, 27,
  34, 2, 42, 10, 50, 18, 58, 26,
  33, 1, 41, 9, 49, 17, 57, 25]

/-- Expansion table `E` (source lines 34-43). -/
def E : List ℕ := [
  32, 1, 2, 3, 4, 5,
  4, 5, 6, 7, 8, 9,
  8, 9, 10, 11, 12, 13,
  12, 13, 14, 15, 16, 17,
  16, 17, 18, 19, 20, 21,
  20, 21, 22, 23, 24, 25,
  24, 25, 26, 27, 28, 29,
  28, 29, 30, 31, 32, 1]

/-- Tables `S_BOXES` (source lines 46-103). -/
def S_BOXES : List (List ℕ) := [
  [14, 4, 13, 1, 2, 15, 11, 8, 3, 10, 6, 12, 5, 9, 0, 7,
   0, 15, 7, 4, 14, 2, 13, 1, 10, 6, 12, 11, 9, 5, 3, 8,
   4, 1, 14, 8, 13, 6, 2, 11, 15, 12, 9, 7, 3, 10, 5, 0,
   15, 12, 8, 2, 4, 9, 1, 7, 5, 11, 3, 14, 10, 0, 6, 13],
  [15, 1, 8, 14, 6, 11, 3, 4, 9, 7, 2, 13, 12, 0, 5, 10,
   3, 13, 4, 7, 15, 2, 8, 14, 12, 0, 1, 10, 6, 9, 11, 5,
   0, 14, 7, 11, 10, 4, 13, 1, 5, 8, 12, 6, 9, 3, 2, 15,
   13, 8, 10, 1, 3, 15, 4, 2, 11, 6, 7, 12, 0, 5, 14, 9],
  [10, 0, 9, 14, 6, 3, 15, 5, 1, 13, 12, 7, 11, 4, 2, 8,
   13, 7, 0, 9, 3, 4, 6, 10, 2, 8, 5, 14, 12, 11, 15, 1,
   13, 6, 4, 9, 8, 15, 3, 0, 11, 1, 2, 12, 5, 10, 14, 7,
   1, 10, 13, 0, 6, 9, 8, 7, 4, 15, 14, 3, 11, 5, 2, 12],
  [7, 13, 14, 3, 0, 6, 9, 10, 1, 2, 8, 5, 11, 12, 4, 15,
   13, 8, 11, 5, 6, 15, 0, 3, 4, 7, 2, 12, 1, 10, 14, 9,
   10, 6, 9, 0, 12, 11, 7, 13, 15, 1, 3, 14, 5, 2, 8, 4,
   3, 15, 0, 6, 10, 1, 13, 8, 9, 4, 5, 11, 12, 7, 2, 14],
  [2, 12, 4, 1, 7, 10, 11, 6, 8, 5, 3, 15, 13, 0, 14, 9,
   14, 11, 2, 12, 4, 7, 13, 1, 5, 0, 15, 10, 3, 9, 8, 6,
   4, 2, 1, 11, 10, 13, 7, 8, 15, 9, 12, 5, 6, 3, 0, 14,
   11, 8, 12, 7, 1, 14, 2, 13, 6, 15, 0, 9, 10, 4, 5, 3],
  [12, 1, 10, 15, 9, 2, 6, 8, 0, 13, 3, 4, 14, 7, 5, 11,
   10, 15, 4, 2, 7, 12, 9, 5, 6, 1, 13, 14, 0, 11, 3, 8,
   9, 14, 15, 5, 2, 8, 12, 3, 7, 0, 4, 10, 1, 13, 11, 6,
   4, 3, 2, 12, 9, 5, 15, 10, 11, 14, 1, 7, 6, 0, 8, 13],
  [4, 11, 2, 14, 15, 0, 8, 13, 3, 12, 9, 7, 5, 10, 6, 1,
   13, 0, 11, 7, 4, 9, 1, 10, 14, 3, 5, 12, 2, 15, 8, 6,
   1, 4, 11, 13, 12, 3, 7, 14, 10, 15, 6, 8, 0, 5, 9, 2,
   6, 11, 13, 8, 1, 4, 10, 7, 9, 5, 0, 15, 14, 2, 3, 12],
  [13, 2, 8, 4, 6, 15, 11, 1, 10, 9, 3, 14, 5, 0, 12, 7,
   1, 15, 13, 8, 10, 3, 7, 4, 12, 5, 6, 11, 0, 14, 9, 2,
   7, 11, 4, 1, 9, 12, 14, 2, 0, 6, 10, 13, 15, 3, 5, 8,
   2, 1, 14, 7, 4, 10, 8, 13, 15, 12, 9, 0, 3, 5, 6, 11]]

/-- Table `P` (source lines 105-110). -/
def P : List ℕ := [
  16, 7, 20, 21, 29, 12, 28, 17,
  1, 15, 23, 26, 5, 18, 31, 10,
  2, 8, 24, 14, 32, 27, 3, 9,
  19, 13, 30, 6, 22, 11, 4, 25]

/-- Table `PC1` (source lines 112-121). -/
def PC1 : List ℕ := [
  57, 49, 41, 33, 25, 17, 9,
  1, 58, 50, 42, 34, 26, 18,
  10, 2, 59, 51, 43, 35, 27,
  19, 11, 3, 60, 52, 44, 36,
  63, 55, 47, 39, 31, 23, 15,
  7, 62, 54, 46, 38, 30, 22,
  14, 6, 61, 53, 45, 37, 29,
  21, 13, 5, 28, 20, 12, 4]

/-- Table `PC2` (source lines 123-132). -/
def PC2 : List ℕ := [
  14, 17, 11, 24, 1, 5,
  3, 28, 15, 6, 21, 10,
  23, 19, 12, 4, 26, 8,
  16, 7, 27, 20, 13, 2,
  41, 52, 31, 37, 47, 55,
  30, 40, 51, 45, 33, 48,
  44, 49, 39, 56, 34, 53,
  46, 42, 50, 36, 29, 32]

/-- Table `SHIFTS` (source line 134). -/
def SHIFTS : List ℕ := [1, 1, 2, 2, 2, 2, 2, 2, 1, 2, 2, 2, 2, 2, 2, 1]

/-! ## Utility functions (source lines 137-188) -/

/-- Function `bytes_to_int64(data)` (source lines 137-141): the first four bytes
form `high`, the last four form `low`.  Python indexing `data[i]` is
embedded as `getD i 0`; every call site passes an 8-byte block. -/
def bytes_to_int64 (data : List ℕ) : ℕ × ℕ :=
  ((data.getD 0 0) <<< 24 ||| (data.getD 1 0) <<< 16 |||
     (data.getD 2 0) <<< 8 ||| data.getD 3 0,
   (data.getD 4 0) <<< 24 ||| (data.getD 5 0) <<< 16 |||
     (data.getD 6 0) <<< 8 ||| data.getD 7 0)

/-- Function `int64_to_bytes(high, low)` (source lines 143-148). -/
def int64_to_bytes (high low : ℕ) : List ℕ :=
  [(high >>> 24) &&& 0xFF, (high >>> 16) &&& 0xFF,
   (high >>> 8) &&& 0xFF, high &&& 0xFF,
   (low >>> 24) &&& 0xFF, (low >>> 16) &&& 0xFF,
   (low >>> 8) &&& 0xFF, low &&& 0xFF]

/-- Function `get_bit(high, low, pos)` (source lines 150-155): positions 1-32 read
the `low` word, positions 33-64 read the `high` word. -/
def get_bit (high low pos : ℕ) : ℕ :=
  if pos ≤ 32 then (low >>> (32 - pos)) &&& 1
  else (high >>> (64 - pos)) &&& 1

/-- Function `set_bit(high, low, pos, value)` (source lines 157-172).  In Python,
`x &= ~(1 << k)` on a non-negative int clears bit `k`, i.e. subtracts
`x & (1 << k)`; both returned words are masked to 32 bits, exactly as in
the final statement `return (high & 0xFFFFFFFF, low & 0xFFFFFFFF)`. -/
def set_bit (high low pos value : ℕ) : ℕ × ℕ :=
  if pos ≤ 32 then
    let bit_pos := 32 - pos
    let low' := if value ≠ 0 then low ||| (1 <<< bit_pos)
                else low - (low &&& (1 <<< bit_pos))
    (high &&& 0xFFFFFFFF, low' &&& 0xFFFFFFFF)
  else
    let bit_pos := 64 - pos
    let high' := if value ≠ 0 then high ||| (1 <<< bit_pos)
                 else high - (high &&& (1 <<< bit_pos))
    (high' &&& 0xFFFFFFFF, low &&& 0xFFFFFFFF)

/-- The loop body sequence of `permute` (source lines 174-182): entry
number `i` (0-based) of the table writes output position `i + 1`. -/
def permuteAux (high low : ℕ) : List ℕ → ℕ → ℕ × ℕ → ℕ × ℕ
  | [], _, r => r
  | t :: ts, i, r =>
      permuteAux high low ts (i + 1) (set_bit r.1 r.2 (i + 1) (get_bit high low t))

/-- Function `permute(high, low, perm_table)` (source lines 174-182). -/
def permute (high low : ℕ) (perm_table : List ℕ) : ℕ × ℕ :=
  permuteAux high low perm_table 0 (0, 0)

/-- Function `left_rotate_28(value, amount)` (source lines 184-188). -/
def left_rotate_28 (value amount : ℕ) : ℕ :=
  let v := value &&& 0x0FFFFFFF
  ((v <<< amount) ||| (v >>> (28 - amount))) &&& 0x0FFFFFFF

/-! ## Key schedule, round function, block cipher (source lines 190-305) -/

/-- Function `generate_round_keys(key_bytes)` (source lines 190-217).  The Python
loop over `range(16)` indexing `SHIFTS[round_num]` is a left fold over
`SHIFTS` carrying the mutable `C`, `D` and the accumulated list. -/
def generate_round_keys (key_bytes : List ℕ) : List (ℕ × ℕ) :=
  let hl := bytes_to_int64 key_bytes
  let perm := permute hl.1 hl.2 PC1
  let C0 := perm.1 >>> 4
  let D0 := ((perm.1 &&& 0xF) <<< 24) ||| (perm.2 >>> 8)
  let step : (ℕ × ℕ) × List (ℕ × ℕ) → ℕ → (ℕ × ℕ) × List (ℕ × ℕ) :=
    fun st s =>
      let C := left_rotate_28 st.1.1 s
      let D := left_rotate_28 st.1.2 s
      let combined_high := (C <<< 4) ||| (D >>> 24)
      let combined_low := (D <<< 8) &&& 0xFFFFFFFF
      ((C, D), st.2 ++ [permute combined_high combined_low PC2])
  (SHIFTS.foldl step ((C0, D0), [])).2

/-- Function `f_function(R, round_key_high, round_key_low)` (source lines 219-253).
The S-box loop over `range(8)` is a left fold accumulating `sbox_output`. -/
def f_function (R round_key_high round_key_low : ℕ) : ℕ :=
  let expanded := permute 0 R E
  let xored_high := expanded.1 ^^^ round_key_high
  let xored_low := expanded.2 ^^^ round_key_low
  let sbox_output :=
    (List.range 8).foldl
      (fun acc i =>
        let six_bits :=
          if i < 4 then (xored_high >>> (26 - i * 6)) &&& 0x3F
          else (xored_low >>> (26 - (i - 4) * 6)) &&& 0x3F
        let row := ((six_bits &&& 0x20) >>> 4) ||| (six_bits &&& 0x01)
        let col := (six_bits &&& 0x1E) >>> 1
        let sbox_value := (S_BOXES.getD i []).getD (row * 16 + col) 0
        acc ||| (sbox_value <<< (28 - i * 4)))
      0
  (permute 0 sbox_output P).2

/-- One Feistel round of the encryption/decryption loops
(source lines 270-274 and 296-300): `new_R = L ^ f(R, rk); L = R; R = new_R`. -/
def feistel_step (LR : ℕ × ℕ) (rk : ℕ × ℕ) : ℕ × ℕ :=
  (LR.2, LR.1 ^^^ f_function LR.2 rk.1 rk.2)

/-- Function `des_encrypt_block(block_bytes, key_bytes)` (source lines 255-279). -/
def des_encrypt_block (block_bytes key_bytes : List ℕ) : List ℕ :=
  let round_keys := generate_round_keys key_bytes
  let hl := bytes_to_int64 block_bytes
  let perm := permute hl.1 hl.2 IP
  let LR := round_keys.foldl feistel_step (perm.1, perm.2)
  let fin := permute LR.2 LR.1 FP
  int64_to_bytes fin.1 fin.2

/-- Function `des_decrypt_block(block_bytes, key_bytes)` (source lines 281-305):
identical, but the loop `for round_num in range(15, -1, -1)` consumes the
round keys in reverse order. -/
def des_decrypt_block (block_bytes key_bytes : List ℕ) : List ℕ :=
  let round_keys := generate_round_keys key_bytes
  let hl := bytes_to_int64 block_bytes
  let perm := permute hl.1 hl.2 IP
  let LR := round_keys.reverse.foldl feistel_step (perm.1, perm.2)
  let fin := permute LR.2 LR.1 FP
  int64_to_bytes fin.1 fin.2

/-! ## Framing layer (source lines 307-387) -/

/-- Function `prepare_key(key_string)` (source lines 307-315).  The argument is the
UTF-8 encoding of the passphrase (`key_string.encode`).  When it
is empty, `key_bytes[i % len(key_bytes)]` raises `ZeroDivisionError`;
there is no empty-key check in the source. -/
def prepare_key (key_bytes : List ℕ) : Except PyErr (List ℕ) :=
  if key_bytes = [] then .error .zeroDivisionError
  else .ok ((List.range 8).map fun i => key_bytes.getD (i % key_bytes.length) 0)

/-- Function `add_padding(data)` (source lines 317-320). -/
def add_padding (data : List ℕ) : List ℕ :=
  let padding_length := 8 - data.length % 8
  data ++ List.replicate padding_length padding_length

/-- Function `remove_padding(data)` (source lines 322-331).  `data[-1]` is the last
byte; `data[:-n]` with `1 ≤ n` keeps the first `len - n` bytes (all of
them removed when `n ≥ len`). -/
def remove_padding (data : List ℕ) : Except PyErr (List ℕ) :=
  if data = [] then .ok data
  else if data.getLastD 0 < 1 ∨ data.getLastD 0 > 8 then .error .invalidPadding
  else .ok (data.take (data.length - data.getLastD 0))

/-- Uppercase hexadecimal digit for a value 0-15. -/
def hex_digit (n : ℕ) : Char :=
  if n < 10 then Char.ofNat (48 + n) else Char.ofNat (55 + n)

/-- Function `bytes_to_hex(data)` (source lines 333-335): the format `%02X` renders each
byte as two uppercase hex digits (every byte produced by the cipher is
< 256, so the two-digit rendering is exact). -/
def bytes_to_hex (data : List ℕ) : List Char :=
  data.flatMap fun b => [hex_digit (b / 16), hex_digit (b % 16)]

/-- Is `c` an ASCII hexadecimal digit, and its value. -/
def hex_digit_val (c : Char) : Option ℕ :=
  if 48 ≤ c.toNat ∧ c.toNat ≤ 57 then some (c.toNat - 48)
  else if 65 ≤ c.toNat ∧ c.toNat ≤ 70 then some (c.toNat - 55)
  else if 97 ≤ c.toNat ∧ c.toNat ≤ 102 then some (c.toNat - 87)
  else none

/-- ASCII whitespace accepted (and stripped) by the Python `int` builtin. -/
def py_space (c : Char) : Bool :=
  c = ' ' ∨ c = '\t' ∨ c = '\n' ∨ c = '\x0d' ∨ c = '\x0b' ∨ c = '\x0c'

/-- A character that can appear in some chunk accepted by `int(s, 16)`:
an ASCII hex digit, a sign, or whitespace.  A chunk containing any other
ASCII character makes `int` raise `ValueError`. -/
def good_hex_char (c : Char) : Bool :=
  (hex_digit_val c).isSome ∨ c = '+' ∨ c = '-' ∨ py_space c

/-- Python `int(s, 16)` restricted to the 1- and 2-character ASCII chunks
produced by `hex_to_bytes` slicing: an accepted chunk is a hex digit,
two hex digits, a sign followed by a digit, or a digit padded by one
whitespace character; everything else raises `ValueError`.  (Non-ASCII
digit or whitespace codepoints, which CPython would also accept, are not
modelled; theorems over `hex_to_bytes` carry an ASCII hypothesis.) -/
def py_int16_chunk : List Char → Except PyErr ℤ
  | [c] => match hex_digit_val c with
           | some v => .ok v
           | none => .error .malformedHexChunk
  | [c1, c2] =>
      match hex_digit_val c1, hex_digit_val c2 with
      | some v1, some v2 => .ok (16 * v1 + v2)
      | _, _ =>
        match hex_digit_val c2 with
        | some v2 =>
            if c1 = '+' then .ok v2
            else if c1 = '-' then .ok (-(v2 : ℤ))
            else if py_space c1 then .ok v2
            else .error .malformedHexChunk
        | none =>
          match hex_digit_val c1 with
          | some v1 => if py_space c2 then .ok v1 else .error .malformedHexChunk
          | none => .error .malformedHexChunk
  | _ => .error .malformedHexChunk

/-- Function `hex_to_bytes(hex_string)` (source lines 337-342): the loop
`for i in range(0, len(hex_string), 2)` takes two characters at a time
(the last chunk is a single character when the length is odd), parses each
chunk with `int(chunk, 16)` and appends it to a bytearray (`append`
raises `ValueError` on a negative value). -/
def hex_to_bytes : List Char → Except PyErr (List ℕ)
  | [] => .ok []
  | [c] => do
      let v ← py_int16_chunk [c]
      if v < 0 then .error .negativeByte else .ok [v.toNat]
  | c1 :: c2 :: rest => do
      let v ← py_int16_chunk [c1, c2]
      if v < 0 then .error .negativeByte
      else do
        let bs ← hex_to_bytes rest
        .ok (v.toNat :: bs)

/-- Fuel-indexed block splitter implementing the loops
`for i in range(0, len(data), 8): block = data[i:i+8]`
(source lines 354-357 and 377-380); the fuel is the list length, enough
for every iteration. -/
def chunks8Aux : ℕ → List ℕ → List (List ℕ)
  | 0, _ => []
  | _, [] => []
  | fuel + 1, x :: xs => (x :: xs.take 7) :: chunks8Aux fuel (xs.drop 7)

/-- The successive 8-byte blocks `data[i:i+8]` of a byte string. -/
def chunks8 (data : List ℕ) : List (List ℕ) :=
  chunks8Aux data.length data

/-- Validity of a byte sequence as UTF-8, modelling whether
`bytes.decode` with encoding utf-8 succeeds (RFC 3629: no overlong forms, no
surrogates, maximum U+10FFFF).  A Python string that decodes successfully
is represented in this embedding by its UTF-8 byte sequence. -/
def utf8_valid : List ℕ → Bool
  | [] => true
  | b1 :: rest =>
    if b1 < 0x80 then utf8_valid rest
    else match rest with
      | b2 :: rest2 =>
        if 0xC2 ≤ b1 ∧ b1 ≤ 0xDF then
          (0x80 ≤ b2 ∧ b2 ≤ 0xBF) ∧ utf8_valid rest2
        else match rest2 with
          | b3 :: rest3 =>
            if b1 = 0xE0 then
              (0xA0 ≤ b2 ∧ b2 ≤ 0xBF) ∧ (0x80 ≤ b3 ∧ b3 ≤ 0xBF) ∧ utf8_valid rest3
            else if (0xE1 ≤ b1 ∧ b1 ≤ 0xEC) ∨ b1 = 0xEE ∨ b1 = 0xEF then
              (0x80 ≤ b2 ∧ b2 ≤ 0xBF) ∧ (0x80 ≤ b3 ∧ b3 ≤ 0xBF) ∧ utf8_valid rest3
            else if b1 = 0xED then
              (0x80 ≤ b2 ∧ b2 ≤ 0x9F) ∧ (0x80 ≤ b3 ∧ b3 ≤ 0xBF) ∧ utf8_valid rest3
            else match rest3 with
              | b4 :: rest4 =>
                if b1 = 0xF0 then
                  (0x90 ≤ b2 ∧ b2 ≤ 0xBF) ∧ (0x80 ≤ b3 ∧ b3 ≤ 0xBF) ∧
                    (0x80 ≤ b4 ∧ b4 ≤ 0xBF) ∧ utf8_valid rest4
                else if 0xF1 ≤ b1 ∧ b1 ≤ 0xF3 then
                  (0x80 ≤ b2 ∧ b2 ≤ 0xBF) ∧ (0x80 ≤ b3 ∧ b3 ≤ 0xBF) ∧
                    (0x80 ≤ b4 ∧ b4 ≤ 0xBF) ∧ utf8_valid rest4
                else if b1 = 0xF4 then
                  (0x80 ≤ b2 ∧ b2 ≤ 0x8F) ∧ (0x80 ≤ b3 ∧ b3 ≤ 0xBF) ∧
                    (0x80 ≤ b4 ∧ b4 ≤ 0xBF) ∧ utf8_valid rest4
                else false
              | [] => false
          | [] => false
      | [] => false

/-- Function `des_encrypt(plaintext, key)` (source lines 344-362).  `plaintext`
and `key` are the UTF-8 encodings of the Python string arguments; the
result is the returned hex string as a character list.  The
`try/except` block re-raises the caught exception unchanged. -/
def des_encrypt (plaintext key : List ℕ) : Except PyErr (List Char) := do
  let key_bytes ← prepare_key key
  let data_bytes := add_padding plaintext
  let encrypted := ((chunks8 data_bytes).map fun b => des_encrypt_block b key_bytes).flatten
  .ok (bytes_to_hex encrypted)

/-- Function `des_decrypt(ciphertext, key)` (source lines 364-387).  The returned
plaintext string is represented by its UTF-8 byte sequence; the final
`unpadded.decode` succeeds exactly when the bytes are valid
UTF-8. -/
def des_decrypt (ciphertext : List Char) (key : List ℕ) : Except PyErr (List ℕ) := do
  let key_bytes ← prepare_key key
  let data_bytes ← hex_to_bytes ciphertext
  if data_bytes.length % 8 ≠ 0 then .error .invalidCiphertextLength
  else do
    let decrypted := ((chunks8 data_bytes).map fun b => des_decrypt_block b key_bytes).flatten
    let unpadded ← remove_padding decrypted
    if utf8_valid unpadded then .ok unpadded else .error .unicodeDecodeError

/-! ## Spec-side model

The following `spec_` definitions are modelled from the words of the
specification (sections 4.1 to 4.5 and section 8), for comparison with the
embedded code: a `w`-bit value is a natural number below `2 ^ w`, bit
positions are 1-based counting from the most significant bit. -/

/-- Modelled from the spec (section 4.1): the bit of a `w`-bit value at
1-based position `pos`, counting from the most significant bit
(bit 1 = MSB, bit `w` = LSB). -/
def spec_bit (v w pos : ℕ) : ℕ := (v >>> (w - pos)) &&& 1

/-- Modelled from the spec (section 4.2): applying a permutation table to a
`w`-bit source value; output bit `i` (1-based, MSB-first) is source bit
`table[i-1]`. -/
def spec_permute (v w : ℕ) (table : List ℕ) : ℕ :=
  table.foldl (fun acc t => acc * 2 + spec_bit v w t) 0

/-- Big-endian (network-order) value of a byte sequence, as used by the
spec to read an 8-byte block or key as one 64-bit value. -/
def bytes_be (data : List ℕ) : ℕ := data.foldl (fun acc b => acc * 256 + b) 0

/-- Modelled from the spec (section 4.3): circular left rotation within
28 bits. -/
def spec_rot28 (v s : ℕ) : ℕ := ((v <<< s) ||| (v >>> (28 - s))) &&& 0x0FFFFFFF

/-- Modelled from the spec (section 4.3): the key schedule.  PC1 yields a
56-bit value split into the most significant 28 bits `C` and the least
significant 28 bits `D`; for each round both halves rotate left by the
`SHIFTS` amount and PC2 of the 56-bit concatenation is the round key. -/
def spec_generate_round_keys (key_bytes : List ℕ) : List ℕ :=
  let v56 := spec_permute (bytes_be key_bytes) 64 PC1
  (SHIFTS.foldl
    (fun st s =>
      let C := spec_rot28 st.1.1 s
      let D := spec_rot28 st.1.2 s
      ((C, D), st.2 ++ [spec_permute ((C <<< 28) ||| D) 56 PC2]))
    ((v56 >>> 28, v56 &&& 0xFFFFFFF), [])).2

/-- Modelled from the spec (section 4.4): the F transform.  Expand `R` by
`E`, XOR with the 48-bit round key, split into eight consecutive 6-bit
groups (group 0 = the six most significant bits), substitute each group
through its S-box using the outer-bits row / middle-bits column rule,
concatenate the eight nibbles MSB-first (group 0 first) and apply `P`. -/
def spec_f_function (R K : ℕ) : ℕ :=
  let x := spec_permute R 32 E ^^^ K
  let s :=
    (List.range 8).foldl
      (fun acc b =>
        let six := (x >>> (42 - b * 6)) &&& 0x3F
        let row := ((six &&& 0x20) >>> 4) ||| (six &&& 0x01)
        let col := (six &&& 0x1E) >>> 1
        acc * 16 + (S_BOXES.getD b []).getD (row * 16 + col) 0)
      0
  spec_permute s 32 P

/-- Modelled from the spec (section 4.5): one-block encryption.  IP, then
16 Feistel rounds on the 32-bit halves (L = high half), then FP of the
64-bit value (R, L). -/
def spec_des_encrypt_block (block_bytes key_bytes : List ℕ) : List ℕ :=
  let rks := spec_generate_round_keys key_bytes
  let v := spec_permute (bytes_be block_bytes) 64 IP
  let LR := rks.foldl (fun LR k => (LR.2, LR.1 ^^^ spec_f_function LR.2 k))
    (v >>> 32, v &&& 0xFFFFFFFF)
  let fin := spec_permute ((LR.2 <<< 32) ||| LR.1) 64 FP
  [(fin >>> 56) &&& 255, (fin >>> 48) &&& 255, (fin >>> 40) &&& 255,
   (fin >>> 32) &&& 255, (fin >>> 24) &&& 255, (fin >>> 16) &&& 255,
   (fin >>> 8) &&& 255, fin &&& 255]

/-- The value of a `w`-bit quantity held in a `(high, low)` pair, read
MSB-first through the `get_bit` addressing of the code (position 1 first).
This is the canonical way to read a permutation result of width `w` back
as a number. -/
def bits_value (high low w : ℕ) : ℕ :=
  (List.range w).foldl (fun acc i => 2 * acc + get_bit high low (i + 1)) 0

/-- The 8-byte known-answer key `13 34 57 79 9B BC DF F1`. -/
def kat_key : List ℕ := [0x13, 0x34, 0x57, 0x79, 0x9B, 0xBC, 0xDF, 0xF1]

/-- The 8-byte known-answer plaintext block `01 23 45 67 89 AB CD EF`. -/
def kat_plain : List ℕ := [0x01, 0x23, 0x45, 0x67, 0x89, 0xAB, 0xCD, 0xEF]

/-- The ciphertext block `85 E8 13 54 0F 0A B4 05` required by the
known-answer test. -/
def kat_cipher : List ℕ := [0x85, 0xE8, 0x13, 0x54, 0x0F, 0x0A, 0xB4, 0x05]

end DesCrypto

namespace DesCrypto

/-! ## Theorems -/

/-- C2: the known-answer vector fails on the code.  The embedded
`des_encrypt_block` sends the published test block to
`53 86 8A 84 54 09 36 D8`, while the algorithm described by the spec
(`spec_des_encrypt_block`, which matches the published cipher) produces
the required `85 E8 13 54 0F 0A B4 05`; the code therefore does not
implement the cipher its own documentation claims. -/
theorem c2_known_answer_divergence :
    des_encrypt_block kat_plain kat_key = [0x53, 0x86, 0x8A, 0x84, 0x54, 0x09, 0x36, 0xD8] ∧
    spec_des_encrypt_block kat_plain kat_key = kat_cipher ∧
    des_encrypt_block kat_plain kat_key ≠ kat_cipher := by
  refine ⟨by decide, by decide, by decide⟩

/-- C3: the bit addressing diverges from the specified convention.  For
the 8-byte input whose only set bit is the most significant bit of the
FIFTH byte, `bytes_to_int64` yields `(0, 0x80000000)` and `get_bit` at
position 1 returns that set bit, although bit 1 is specified to be the
most significant bit of the FIRST byte (which is 0 here, as `spec_bit`
of the big-endian 64-bit value shows).  Dually, `set_bit` at position 1
on the zero value sets the most significant bit of the fifth byte.  The
code reads positions 1-32 from the low word holding bytes 4-7, contrary
to its own docstring `(1-64, DES convention)`. -/
theorem c3_bit_addressing_divergence :
    bytes_to_int64 [0, 0, 0, 0, 128, 0, 0, 0] = (0, 2147483648) ∧
    get_bit 0 2147483648 1 = 1 ∧
    spec_bit (bytes_be [0, 0, 0, 0, 128, 0, 0, 0]) 64 1 = 0 ∧
    set_bit 0 0 1 1 = (0, 2147483648) ∧
    int64_to_bytes 0 2147483648 = [0, 0, 0, 0, 128, 0, 0, 0] := by
  refine ⟨by decide, by decide, by decide, by decide, by decide⟩

/-- C4: the key schedule does return exactly 16 round keys, but its
halves `C` and `D` are not the most/least significant 28 bits of the
PC1 output, so the resulting keys (read back as 48-bit values through
the code own bit addressing) differ from the schedule described by the
spec (`spec_generate_round_keys`) already at the known-answer key. -/
theorem c4_key_schedule_divergence :
    (generate_round_keys kat_key).length = 16 ∧
    (generate_round_keys kat_key).map (fun rk => bits_value rk.1 rk.2 48) ≠
      spec_generate_round_keys kat_key := by
  refine ⟨by decide, by decide⟩

/-- C5: the F transform diverges from the specified grouping.  At
`R = 0x80000000` and the all-zero round key, the code yields 3721976632
while the specified partition (eight consecutive 6-bit groups of the
48-bit expansion, group 0 most significant — `spec_f_function`) yields
3495451550: the code instead feeds expansion bits 33-48 (padded with
zeros) to S-boxes 1-4 and bits 1-24 to S-boxes 5-8, ignoring bits
25-32. -/
theorem c5_f_function_divergence :
    f_function 2147483648 0 0 = 3721976632 ∧
    spec_f_function 2147483648 0 = 3495451550 ∧
    f_function 2147483648 0 0 ≠ spec_f_function 2147483648 0 := by
  refine ⟨by decide, by decide, by decide⟩

/-- C6 counterexample: with a zero-length passphrase the failure is the
`ZeroDivisionError` raised by `key_bytes[i % 0]` INSIDE key derivation —
the modulo-by-zero is reached, and no typed EmptyKey check exists in the
code (`PyErr` has no such constructor because the source defines no such
error). -/
theorem c6_empty_key_counterexample :
    des_encrypt [49] [] = .error .zeroDivisionError ∧
    des_decrypt ['0', '0'] [] = .error .zeroDivisionError := by
  refine ⟨rfl, rfl⟩

/-- C6 amended: for every plaintext and every ciphertext, calling
`des_encrypt` or `des_decrypt` with a zero-length passphrase fails by
raising `ZeroDivisionError` during key derivation (so no value is
returned), rather than with a typed EmptyKey error detected beforehand. -/
theorem c6_empty_key_zero_division (plaintext : List ℕ) (ciphertext : List Char) :
    des_encrypt plaintext [] = .error .zeroDivisionError ∧
    des_decrypt ciphertext [] = .error .zeroDivisionError := by
  refine ⟨rfl, rfl⟩

/-- C7 counterexample: decrypting the empty hex string with a non-empty
key succeeds and returns the empty plaintext (0 decoded bytes pass the
`% 8` check, the block loop runs zero times, and `remove_padding`
returns an empty input unchanged), contradicting the claim that a
non-POSITIVE multiple of 8 is rejected. -/
theorem c7_empty_ciphertext_counterexample :
    des_decrypt [] [65] = .ok [] := rfl

/-- C8 counterexample: an odd-length hex ciphertext on which
`des_decrypt` SUCCEEDS.  The final lone character parses as its own
one-digit byte (`int("2", 16) = 2`), giving 8 decoded bytes; the block
decrypts under key `"A"` to a sequence ending in a valid padding byte 8,
and the empty remainder decodes, so the call returns the empty plaintext
instead of failing. -/
theorem c8_odd_length_counterexample :
    (['8', '3', '0', '0', '0', '0', '0', '0', '0', '0', '0', '0', '0', '0', '2'] : List Char).length % 2 = 1 ∧
    des_decrypt ['8', '3', '0', '0', '0', '0', '0', '0', '0', '0', '0', '0', '0', '0', '2'] [65] = .ok [] := by
  refine ⟨rfl, rfl⟩

/-- The padding length chosen by `add_padding` is between 1 and 8 and the
function appends that many copies of itself. -/
theorem add_padding_eq (x : List ℕ) :
    add_padding x = x ++ List.replicate (8 - x.length % 8) (8 - x.length % 8) := rfl

/-- The last element of a list followed by a non-empty replicate block. -/
theorem getLastD_append_replicate (x : List ℕ) (n : ℕ) (hn : 1 ≤ n) :
    (x ++ List.replicate n n).getLastD 0 = n := by
  obtain ⟨m, rfl⟩ : ∃ m, n = m + 1 := ⟨n - 1, by omega⟩
  rw [List.replicate_succ', ← List.append_assoc, List.getLastD_concat]

/-- Removing the padding added by `add_padding` restores the input. -/
theorem pad_roundtrip (x : List ℕ) : remove_padding (add_padding x) = .ok x := by
  have h1 : 1 ≤ 8 - x.length % 8 := by omega
  have hne : add_padding x ≠ [] := by
    rw [add_padding_eq]
    intro h
    have := congrArg List.length h
    simp at this
    omega
  have hlast : (add_padding x).getLastD 0 = 8 - x.length % 8 := by
    rw [add_padding_eq]
    exact getLastD_append_replicate x _ h1
  have hlen : (add_padding x).length = x.length + (8 - x.length % 8) := by
    rw [add_padding_eq]; simp
  unfold remove_padding
  rw [if_neg hne, hlast, if_neg (by omega)]
  rw [hlen]
  have : x.length + (8 - x.length % 8) - (8 - x.length % 8) = x.length := by omega
  rw [this, add_padding_eq, List.take_left']
  rfl

/-- C9: padding round-trips — `remove_padding (add_padding x) = x` for
every byte sequence `x`, and an input whose length is already a multiple
of 8 (including the empty sequence) receives a full block of 8 bytes,
each of value 8. -/
theorem c9_padding_roundtrip (x : List ℕ) :
    remove_padding (add_padding x) = .ok x ∧
    (x.length % 8 = 0 → add_padding x = x ++ List.replicate 8 8) := by
  refine ⟨pad_roundtrip x, fun h => ?_⟩
  rw [add_padding_eq, h]

/-- C9 witness: the round-trip at `[1, 2, 3]` and the aligned-input rule
at the empty sequence. -/
theorem c9_padding_roundtrip_witness :
    remove_padding (add_padding [1, 2, 3]) = .ok [1, 2, 3] ∧
    add_padding ([] : List ℕ) = [] ++ List.replicate 8 8 :=
  ⟨(c9_padding_roundtrip [1, 2, 3]).1, (c9_padding_roundtrip []).2 rfl⟩

/-- C10: for every non-empty byte sequence, `remove_padding` fails with
the invalid-padding error exactly when the final byte lies outside
`[1, 8]`; otherwise it succeeds and returns the input with its last `n`
bytes removed (`n` the final byte), no other byte influencing the
outcome; in particular when `n` is at least the length it returns the
empty sequence rather than failing. -/
theorem c10_remove_padding_spec (d : List ℕ) (hd : d ≠ []) :
    (remove_padding d = .error .invalidPadding ↔ (d.getLastD 0 < 1 ∨ d.getLastD 0 > 8)) ∧
    (1 ≤ d.getLastD 0 → d.getLastD 0 ≤ 8 →
      remove_padding d = .ok (d.take (d.length - d.getLastD 0))) ∧
    (1 ≤ d.getLastD 0 → d.getLastD 0 ≤ 8 → d.length ≤ d.getLastD 0 →
      remove_padding d = .ok []) := by
  unfold remove_padding
  rw [if_neg hd]
  by_cases h : d.getLastD 0 < 1 ∨ d.getLastD 0 > 8
  · rw [if_pos h]
    exact ⟨⟨fun _ => h, fun _ => rfl⟩, fun h1 h8 => by omega, fun h1 h8 _ => by omega⟩
  · rw [if_neg h]
    refine ⟨⟨fun hc => by simp at hc, fun hc => absurd hc h⟩, fun _ _ => rfl, fun _ _ hlen => ?_⟩
    have : d.length - d.getLastD 0 = 0 := by omega
    rw [this, List.take_zero]

/-- C10 witness: the three behaviours at concrete inputs — final byte 9
is rejected, final byte 1 strips one byte, final byte 8 on a singleton
empties the list. -/
theorem c10_remove_padding_spec_witness :
    remove_padding [9] = .error .invalidPadding ∧
    remove_padding [5, 1] = .ok [5] ∧
    remove_padding [8] = .ok [] :=
  ⟨((c10_remove_padding_spec [9] (by decide)).1).mpr (by decide),
   by
     have h := (c10_remove_padding_spec [5, 1] (by decide)).2.1 (by decide) (by decide)
     simpa using h,
   (c10_remove_padding_spec [8] (by decide)).2.2 (by decide) (by decide) (by decide)⟩

/-! ### Bit-level lemmas about `get_bit`, `set_bit` and `permute` -/

theorem shiftRight_and_one (x n : ℕ) : (x >>> n) &&& 1 = (x.testBit n).toNat := by
  rw [Nat.and_one_is_mod, Nat.shiftRight_eq_div_pow, Nat.testBit_to_div_mod]
  rcases Nat.mod_two_eq_zero_or_one (x / 2 ^ n) with h | h <;> simp [h]

theorem get_bit_eq_testBit (h l q : ℕ) :
    get_bit h l q = (if q ≤ 32 then l.testBit (32 - q) else h.testBit (64 - q)).toNat := by
  unfold get_bit
  by_cases hq : q ≤ 32
  · rw [if_pos hq, if_pos hq, shiftRight_and_one]
  · rw [if_neg hq, if_neg hq, shiftRight_and_one]

theorem get_bit_le_one (h l q : ℕ) : get_bit h l q ≤ 1 := by
  rw [get_bit_eq_testBit]
  split <;> exact Bool.toNat_le _

theorem get_bit_zero_pair (q : ℕ) : get_bit 0 0 q = 0 := by
  rw [get_bit_eq_testBit]
  split <;> simp

theorem and_mask32_eq_mod (x : ℕ) : x &&& 0xFFFFFFFF = x % 2 ^ 32 := by
  have h : (0xFFFFFFFF : ℕ) = 2 ^ 32 - 1 := by norm_num
  rw [h, Nat.and_pow_two_sub_one_eq_mod]

theorem and_two_pow_eq_zero (x k : ℕ) (hb : x.testBit k = false) : x &&& (1 <<< k) = 0 := by
  have h1 : (1 : ℕ) <<< k = 2 ^ k := by rw [Nat.shiftLeft_eq, one_mul]
  rw [h1]
  apply Nat.eq_of_testBit_eq
  intro i
  simp only [Nat.testBit_and, Nat.zero_testBit, Nat.testBit_two_pow]
  by_cases hik : k = i
  · subst hik
    simp [hb]
  · simp [hik]

theorem mod_2_32_lt (x : ℕ) : x % 2 ^ 32 < 2 ^ 32 := Nat.mod_lt _ (by norm_num)

theorem set_bit_lt (h l p v : ℕ) :
    (set_bit h l p v).1 < 2 ^ 32 ∧ (set_bit h l p v).2 < 2 ^ 32 := by
  unfold set_bit
  by_cases hple : p ≤ 32
  · rw [if_pos hple]
    dsimp only
    exact ⟨by rw [and_mask32_eq_mod]; exact mod_2_32_lt h, by rw [and_mask32_eq_mod]; exact mod_2_32_lt _⟩
  · rw [if_neg hple]
    dsimp only
    exact ⟨by rw [and_mask32_eq_mod]; exact mod_2_32_lt _, by rw [and_mask32_eq_mod]; exact mod_2_32_lt l⟩

theorem testBit_mod_2_32 (x i : ℕ) (hi : i < 32) : (x % 2 ^ 32).testBit i = x.testBit i := by
  rw [Nat.testBit_mod_two_pow]
  simp [hi]

theorem set_bit_zero_eq (h l p : ℕ) (hh : h < 2 ^ 32) (hl : l < 2 ^ 32)
    (hz : get_bit h l p = 0) : set_bit h l p 0 = (h, l) := by
  rw [get_bit_eq_testBit] at hz
  unfold set_bit
  by_cases hple : p ≤ 32
  · have hbit : l.testBit (32 - p) = false := by
      rw [if_pos hple] at hz
      cases hx : l.testBit (32 - p)
      · rfl
      · rw [hx] at hz
        simp at hz
    rw [if_pos hple]
    show (h &&& 0xFFFFFFFF, (l - (l &&& (1 <<< (32 - p)))) &&& 0xFFFFFFFF) = (h, l)
    rw [and_two_pow_eq_zero l (32 - p) hbit, Nat.sub_zero, and_mask32_eq_mod,
      and_mask32_eq_mod, Nat.mod_eq_of_lt hh, Nat.mod_eq_of_lt hl]
  · have hbit : h.testBit (64 - p) = false := by
      rw [if_neg hple] at hz
      cases hx : h.testBit (64 - p)
      · rfl
      · rw [hx] at hz
        simp at hz
    rw [if_neg hple]
    show ((h - (h &&& (1 <<< (64 - p)))) &&& 0xFFFFFFFF, l &&& 0xFFFFFFFF) = (h, l)
    rw [and_two_pow_eq_zero h (64 - p) hbit, Nat.sub_zero, and_mask32_eq_mod,
      and_mask32_eq_mod, Nat.mod_eq_of_lt hh, Nat.mod_eq_of_lt hl]

theorem testBit_or_two_pow_mask (x k i : ℕ) (hi : i < 32) :
    ((x ||| 1 <<< k) &&& 0xFFFFFFFF).testBit i = (x.testBit i || decide (k = i)) := by
  have h1 : (1 : ℕ) <<< k = 2 ^ k := by rw [Nat.shiftLeft_eq, one_mul]
  rw [and_mask32_eq_mod, testBit_mod_2_32 _ _ hi, h1, Nat.testBit_or, Nat.testBit_two_pow]

theorem testBit_mask_of_lt (x i : ℕ) (hi : i < 32) :
    (x &&& 0xFFFFFFFF).testBit i = x.testBit i := by
  rw [and_mask32_eq_mod, testBit_mod_2_32 _ _ hi]

theorem get_bit_set_bit_self (h l p v : ℕ) (hp1 : 1 ≤ p) (hp : p ≤ 64) (hv : v ≠ 0) :
    get_bit (set_bit h l p v).1 (set_bit h l p v).2 p = 1 := by
  unfold set_bit
  by_cases hple : p ≤ 32
  · rw [if_pos hple]
    dsimp only
    rw [if_pos hv, get_bit_eq_testBit, if_pos hple, testBit_or_two_pow_mask _ _ _ (by omega)]
    simp
  · rw [if_neg hple]
    dsimp only
    rw [if_pos hv, get_bit_eq_testBit, if_neg hple, testBit_or_two_pow_mask _ _ _ (by omega)]
    simp

theorem get_bit_set_bit_ne (h l p q v : ℕ)
    (hp1 : 1 ≤ p) (hp : p ≤ 64) (hq1 : 1 ≤ q) (hq : q ≤ 64) (hne : q ≠ p) (hv : v ≠ 0) :
    get_bit (set_bit h l p v).1 (set_bit h l p v).2 q = get_bit h l q := by
  unfold set_bit
  by_cases hple : p ≤ 32
  · rw [if_pos hple]
    dsimp only
    rw [if_pos hv, get_bit_eq_testBit, get_bit_eq_testBit]
    by_cases hqle : q ≤ 32
    · rw [if_pos hqle, if_pos hqle, testBit_or_two_pow_mask _ _ _ (by omega)]
      have hne32 : ¬(32 - p = 32 - q) := by omega
      simp [hne32]
    · rw [if_neg hqle, if_neg hqle, testBit_mask_of_lt _ _ (by omega)]
  · rw [if_neg hple]
    dsimp only
    rw [if_pos hv, get_bit_eq_testBit, get_bit_eq_testBit]
    by_cases hqle : q ≤ 32
    · rw [if_pos hqle, if_pos hqle, testBit_mask_of_lt _ _ (by omega)]
    · rw [if_neg hqle, if_neg hqle, testBit_or_two_pow_mask _ _ _ (by omega)]
      have hne32 : ¬(64 - p = 64 - q) := by omega
      simp [hne32]

theorem permuteAux_spec (h l : ℕ) (ts : List ℕ) :
    ∀ (i : ℕ) (r : ℕ × ℕ),
      r.1 < 2 ^ 32 → r.2 < 2 ^ 32 → i + ts.length ≤ 64 →
      (∀ q, i < q → q ≤ 64 → get_bit r.1 r.2 q = 0) →
      (permuteAux h l ts i r).1 < 2 ^ 32 ∧ (permuteAux h l ts i r).2 < 2 ^ 32 ∧
      ∀ q, 1 ≤ q → q ≤ 64 →
        get_bit (permuteAux h l ts i r).1 (permuteAux h l ts i r).2 q =
          if q ≤ i then get_bit r.1 r.2 q
          else if q ≤ i + ts.length then get_bit h l (ts.getD (q - i - 1) 0)
          else 0 := by
  induction ts with
  | nil =>
    intro i r hr1 hr2 _ hzero
    refine ⟨hr1, hr2, fun q hq1 hq64 => ?_⟩
    simp only [permuteAux, List.length_nil, Nat.add_zero]
    by_cases hqi : q ≤ i
    · rw [if_pos hqi]
    · rw [if_neg hqi, if_neg hqi]
      exact hzero q (by omega) hq64
  | cons t ts ih =>
    intro i r hr1 hr2 hlen hzero
    have hstep : permuteAux h l (t :: ts) i r =
        permuteAux h l ts (i + 1) (set_bit r.1 r.2 (i + 1) (get_bit h l t)) := rfl
    set r2 := set_bit r.1 r.2 (i + 1) (get_bit h l t) with hr2def
    have hlen2 : (i + 1) + ts.length ≤ 64 := by
      simp only [List.length_cons] at hlen
      omega
    have hb2 := set_bit_lt r.1 r.2 (i + 1) (get_bit h l t)
    by_cases hv : get_bit h l t = 0
    · have hid : r2 = (r.1, r.2) := by
        rw [hr2def, hv]
        exact set_bit_zero_eq r.1 r.2 (i + 1) hr1 hr2 (hzero (i + 1) (by omega) (by omega))
      have hzero2 : ∀ q, i + 1 < q → q ≤ 64 → get_bit r2.1 r2.2 q = 0 := by
        intro q hq hq64
        rw [hid]
        exact hzero q (by omega) hq64
      obtain ⟨hA, hB, hQ⟩ := ih (i + 1) r2 (by rw [hid]; exact hr1) (by rw [hid]; exact hr2) hlen2 hzero2
      rw [hstep]
      refine ⟨hA, hB, fun q hq1 hq64 => ?_⟩
      rw [hQ q hq1 hq64]
      by_cases hqi : q ≤ i
      · rw [if_pos (by omega : q ≤ i + 1), if_pos hqi, hid]
      · by_cases hqi1 : q = i + 1
        · rw [if_pos (by omega : q ≤ i + 1), if_neg hqi,
            if_pos (by simp only [List.length_cons]; omega : q ≤ i + (t :: ts).length), hid]
          have hd : (t :: ts).getD (q - i - 1) 0 = t := by
            have : q - i - 1 = 0 := by omega
            rw [this]
            rfl
          rw [hd, hv]
          show get_bit r.1 r.2 q = 0
          subst hqi1
          exact hzero (i + 1) (by omega) (by omega)
        · rw [if_neg (by omega : ¬q ≤ i + 1), if_neg hqi]
          by_cases hqlen : q ≤ i + 1 + ts.length
          · rw [if_pos hqlen, if_pos (by simp only [List.length_cons]; omega)]
            have hd : (t :: ts).getD (q - i - 1) 0 = ts.getD (q - i - 2) 0 := by
              have : q - i - 1 = (q - i - 2) + 1 := by omega
              rw [this]
              rfl
            rw [hd]
            have : q - (i + 1) - 1 = q - i - 2 := by omega
            rw [this]
          · rw [if_neg hqlen, if_neg (by simp only [List.length_cons]; omega)]
    · have hzero2 : ∀ q, i + 1 < q → q ≤ 64 → get_bit r2.1 r2.2 q = 0 := by
        intro q hq hq64
        rw [hr2def, get_bit_set_bit_ne r.1 r.2 (i + 1) q _ (by omega) (by omega) (by omega) hq64 (by omega) hv]
        exact hzero q (by omega) hq64
      obtain ⟨hA, hB, hQ⟩ := ih (i + 1) r2 hb2.1 hb2.2 hlen2 hzero2
      rw [hstep]
      refine ⟨hA, hB, fun q hq1 hq64 => ?_⟩
      rw [hQ q hq1 hq64]
      by_cases hqi : q ≤ i
      · rw [if_pos (by omega : q ≤ i + 1), if_pos hqi, hr2def,
          get_bit_set_bit_ne r.1 r.2 (i + 1) q _ (by omega) (by omega) (by omega) (by omega) (by omega) hv]
      · by_cases hqi1 : q = i + 1
        · rw [if_pos (by omega : q ≤ i + 1), if_neg hqi,
            if_pos (by simp only [List.length_cons]; omega : q ≤ i + (t :: ts).length)]
          have hd : (t :: ts).getD (q - i - 1) 0 = t := by
            have : q - i - 1 = 0 := by omega
            rw [this]
            rfl
          rw [hd, hr2def, hqi1, get_bit_set_bit_self r.1 r.2 (i + 1) _ (by omega) (by omega) hv]
          have := get_bit_le_one h l t
          omega
        · rw [if_neg (by omega : ¬q ≤ i + 1), if_neg hqi]
          by_cases hqlen : q ≤ i + 1 + ts.length
          · rw [if_pos hqlen, if_pos (by simp only [List.length_cons]; omega)]
            have hd : (t :: ts).getD (q - i - 1) 0 = ts.getD (q - i - 2) 0 := by
              have : q - i - 1 = (q - i - 2) + 1 := by omega
              rw [this]
              rfl
            rw [hd]
            have : q - (i + 1) - 1 = q - i - 2 := by omega
            rw [this]
          · rw [if_neg hqlen, if_neg (by simp only [List.length_cons]; omega)]

theorem permute_lt (h l : ℕ) (T : List ℕ) (hT : T.length ≤ 64) :
    (permute h l T).1 < 2 ^ 32 ∧ (permute h l T).2 < 2 ^ 32 := by
  have hs := permuteAux_spec h l T 0 (0, 0) (by norm_num) (by norm_num) (by omega)
    (fun q _ _ => get_bit_zero_pair q)
  exact ⟨hs.1, hs.2.1⟩

theorem permute_get_bit (h l : ℕ) (T : List ℕ) (hT : T.length ≤ 64)
    (q : ℕ) (hq1 : 1 ≤ q) (hq64 : q ≤ 64) :
    get_bit (permute h l T).1 (permute h l T).2 q =
      if q ≤ T.length then get_bit h l (T.getD (q - 1) 0) else 0 := by
  have hs := permuteAux_spec h l T 0 (0, 0) (by norm_num) (by norm_num) (by omega)
    (fun q _ _ => get_bit_zero_pair q)
  unfold permute
  rw [hs.2.2 q hq1 hq64, if_neg (by omega : ¬q ≤ 0)]
  simp only [Nat.zero_add, Nat.sub_zero]

theorem pair_ext (h l h2 l2 : ℕ) (hh : h < 2 ^ 32) (hl : l < 2 ^ 32)
    (hh2 : h2 < 2 ^ 32) (hl2 : l2 < 2 ^ 32)
    (heq : ∀ q, 1 ≤ q → q ≤ 64 → get_bit h l q = get_bit h2 l2 q) :
    h = h2 ∧ l = l2 := by
  have toNat_inj : ∀ a b : Bool, a.toNat = b.toNat → a = b := by decide
  constructor
  · apply Nat.eq_of_testBit_eq
    intro i
    by_cases hi : i < 32
    · have hq := heq (64 - i) (by omega) (by omega)
      rw [get_bit_eq_testBit, get_bit_eq_testBit, if_neg (by omega), if_neg (by omega)] at hq
      have hidx : 64 - (64 - i) = i := by omega
      rw [hidx] at hq
      exact toNat_inj _ _ hq
    · have h32 : (2 : ℕ) ^ 32 ≤ 2 ^ i := Nat.pow_le_pow_right (by norm_num) (by omega)
      rw [Nat.testBit_lt_two_pow (lt_of_lt_of_le hh h32),
        Nat.testBit_lt_two_pow (lt_of_lt_of_le hh2 h32)]
  · apply Nat.eq_of_testBit_eq
    intro i
    by_cases hi : i < 32
    · have hq := heq (32 - i) (by omega) (by omega)
      rw [get_bit_eq_testBit, get_bit_eq_testBit, if_pos (by omega), if_pos (by omega)] at hq
      have hidx : 32 - (32 - i) = i := by omega
      rw [hidx] at hq
      exact toNat_inj _ _ hq
    · have h32 : (2 : ℕ) ^ 32 ≤ 2 ^ i := Nat.pow_le_pow_right (by norm_num) (by omega)
      rw [Nat.testBit_lt_two_pow (lt_of_lt_of_le hl h32),
        Nat.testBit_lt_two_pow (lt_of_lt_of_le hl2 h32)]

theorem permute_permute_id (T1 T2 : List ℕ) (hl1 : T1.length = 64) (hl2 : T2.length = 64)
    (hent : ∀ j, j < 64 → 1 ≤ T2.getD j 0 ∧ T2.getD j 0 ≤ 64)
    (hcomp : ∀ j, j < 64 → T1.getD (T2.getD j 0 - 1) 0 = j + 1)
    (h l : ℕ) (hh : h < 2 ^ 32) (hl : l < 2 ^ 32) :
    permute (permute h l T1).1 (permute h l T1).2 T2 = (h, l) := by
  have hP1 := permute_lt h l T1 (by omega)
  have hP2 := permute_lt (permute h l T1).1 (permute h l T1).2 T2 (by omega)
  have key : ∀ q, 1 ≤ q → q ≤ 64 →
      get_bit (permute (permute h l T1).1 (permute h l T1).2 T2).1
        (permute (permute h l T1).1 (permute h l T1).2 T2).2 q = get_bit h l q := by
    intro q hq1 hq64
    rw [permute_get_bit _ _ T2 (by omega) q hq1 hq64, if_pos (by omega)]
    obtain ⟨he1, he2⟩ := hent (q - 1) (by omega)
    rw [permute_get_bit h l T1 (by omega) _ he1 he2, if_pos (by omega)]
    rw [hcomp (q - 1) (by omega)]
    have : q - 1 + 1 = q := by omega
    rw [this]
  obtain ⟨e1, e2⟩ := pair_ext _ _ h l hP2.1 hP2.2 hh hl key
  exact Prod.ext e1 e2

theorem IP_entries : ∀ j, j < 64 → 1 ≤ IP.getD j 0 ∧ IP.getD j 0 ≤ 64 := by decide

theorem FP_entries : ∀ j, j < 64 → 1 ≤ FP.getD j 0 ∧ FP.getD j 0 ≤ 64 := by decide

theorem IP_FP_comp : ∀ j, j < 64 → IP.getD (FP.getD j 0 - 1) 0 = j + 1 := by decide

theorem FP_IP_comp : ∀ j, j < 64 → FP.getD (IP.getD j 0 - 1) 0 = j + 1 := by decide

/-- Applying `IP` then `FP` through `permute` is the identity on pairs of
32-bit words. -/
theorem permute_IP_then_FP (h l : ℕ) (hh : h < 2 ^ 32) (hl : l < 2 ^ 32) :
    permute (permute h l IP).1 (permute h l IP).2 FP = (h, l) :=
  permute_permute_id IP FP (by decide) (by decide) FP_entries IP_FP_comp h l hh hl

/-- Applying `FP` then `IP` through `permute` is the identity on pairs of
32-bit words. -/
theorem permute_FP_then_IP (h l : ℕ) (hh : h < 2 ^ 32) (hl : l < 2 ^ 32) :
    permute (permute h l FP).1 (permute h l FP).2 IP = (h, l) :=
  permute_permute_id FP IP (by decide) (by decide) IP_entries FP_IP_comp h l hh hl

/-! ### Byte packing and the Feistel structure -/

theorem lor_eq_add (a b k : ℕ) (hb : b < 2 ^ k) : a <<< k ||| b = a <<< k + b := by
  apply Nat.eq_of_testBit_eq
  intro j
  by_cases hj : j < k
  · have hge : ¬j ≥ k := by omega
    rw [Nat.testBit_or, Nat.testBit_shiftLeft]
    have h2 : (a <<< k + b) % 2 ^ k = b := by
      rw [Nat.shiftLeft_eq, Nat.add_comm, Nat.add_mul_mod_self_right, Nat.mod_eq_of_lt hb]
    have h3 := Nat.testBit_mod_two_pow (a <<< k + b) k j
    rw [h2] at h3
    simp only [hj, decide_eq_true_eq, Bool.true_and, decide_True] at h3
    simp only [hge, decide_False, Bool.false_and, Bool.false_or]
    exact h3
  · have h1 : j ≥ k := by omega
    have hbj : b.testBit j = false :=
      Nat.testBit_lt_two_pow (lt_of_lt_of_le hb (Nat.pow_le_pow_right (by norm_num) (by omega)))
    rw [Nat.testBit_or, Nat.testBit_shiftLeft, hbj, Bool.or_false]
    simp only [h1, decide_True, Bool.true_and]
    have hdiv : (a <<< k + b) / 2 ^ j = a / 2 ^ (j - k) := by
      have hsplit : (2 : ℕ) ^ j = 2 ^ k * 2 ^ (j - k) := by
        rw [← pow_add]
        congr 1
        omega
      rw [Nat.shiftLeft_eq, hsplit, ← Nat.div_div_eq_div_mul, Nat.add_comm,
        Nat.add_mul_div_right _ _ (Nat.two_pow_pos k), Nat.div_eq_of_lt hb, Nat.zero_add]
    rw [Nat.testBit_to_div_mod, Nat.testBit_to_div_mod, hdiv]

theorem four_bytes_value (a b c d : ℕ) (hb : b < 256) (hc : c < 256) (hd : d < 256) :
    a <<< 24 ||| b <<< 16 ||| c <<< 8 ||| d = a * 16777216 + b * 65536 + c * 256 + d := by
  have p8 : (2 : ℕ) ^ 8 = 256 := by norm_num
  have p16 : (2 : ℕ) ^ 16 = 65536 := by norm_num
  have p24 : (2 : ℕ) ^ 24 = 16777216 := by norm_num
  have hcd : c <<< 8 ||| d = c * 256 + d := by
    rw [lor_eq_add c d 8 (by omega), Nat.shiftLeft_eq, p8]
  have hbcd : b <<< 16 ||| (c <<< 8 ||| d) = b * 65536 + (c * 256 + d) := by
    rw [hcd, lor_eq_add b (c * 256 + d) 16 (by omega), Nat.shiftLeft_eq, p16]
  rw [Nat.lor_assoc, Nat.lor_assoc, hbcd,
    lor_eq_add a (b * 65536 + (c * 256 + d)) 24 (by omega), Nat.shiftLeft_eq, p24]
  omega

theorem and_255_eq_mod (x : ℕ) : x &&& 0xFF = x % 256 := by
  have h : (0xFF : ℕ) = 2 ^ 8 - 1 := by norm_num
  rw [h, Nat.and_pow_two_sub_one_eq_mod]

theorem int64_to_bytes_arith (h l : ℕ) :
    int64_to_bytes h l =
      [h / 16777216 % 256, h / 65536 % 256, h / 256 % 256, h % 256,
       l / 16777216 % 256, l / 65536 % 256, l / 256 % 256, l % 256] := by
  unfold int64_to_bytes
  simp only [and_255_eq_mod, Nat.shiftRight_eq_div_pow]

theorem eight_bytes_decompose (data : List ℕ) (hlen : data.length = 8) :
    ∃ b0 b1 b2 b3 b4 b5 b6 b7, data = [b0, b1, b2, b3, b4, b5, b6, b7] := by
  rcases data with _ | ⟨b0, _ | ⟨b1, _ | ⟨b2, _ | ⟨b3, _ | ⟨b4, _ | ⟨b5, _ | ⟨b6, _ | ⟨b7, _ | ⟨b8, tl⟩⟩⟩⟩⟩⟩⟩⟩⟩ <;>
    simp only [List.length_cons, List.length_nil] at hlen <;>
    first
    | omega
    | exact ⟨b0, b1, b2, b3, b4, b5, b6, b7, rfl⟩

theorem bytes_to_int64_arith (b0 b1 b2 b3 b4 b5 b6 b7 : ℕ)
    (h1 : b1 < 256) (h2 : b2 < 256) (h3 : b3 < 256)
    (h5 : b5 < 256) (h6 : b6 < 256) (h7 : b7 < 256) :
    bytes_to_int64 [b0, b1, b2, b3, b4, b5, b6, b7] =
      (b0 * 16777216 + b1 * 65536 + b2 * 256 + b3,
       b4 * 16777216 + b5 * 65536 + b6 * 256 + b7) := by
  unfold bytes_to_int64
  rw [show ([b0, b1, b2, b3, b4, b5, b6, b7] : List ℕ).getD 0 0 = b0 from rfl]
  rw [show ([b0, b1, b2, b3, b4, b5, b6, b7] : List ℕ).getD 1 0 = b1 from rfl]
  rw [show ([b0, b1, b2, b3, b4, b5, b6, b7] : List ℕ).getD 2 0 = b2 from rfl]
  rw [show ([b0, b1, b2, b3, b4, b5, b6, b7] : List ℕ).getD 3 0 = b3 from rfl]
  rw [show ([b0, b1, b2, b3, b4, b5, b6, b7] : List ℕ).getD 4 0 = b4 from rfl]
  rw [show ([b0, b1, b2, b3, b4, b5, b6, b7] : List ℕ).getD 5 0 = b5 from rfl]
  rw [show ([b0, b1, b2, b3, b4, b5, b6, b7] : List ℕ).getD 6 0 = b6 from rfl]
  rw [show ([b0, b1, b2, b3, b4, b5, b6, b7] : List ℕ).getD 7 0 = b7 from rfl]
  rw [four_bytes_value b0 b1 b2 b3 h1 h2 h3, four_bytes_value b4 b5 b6 b7 h5 h6 h7]

theorem int64_bytes_roundtrip (h l : ℕ) (hh : h < 2 ^ 32) (hl : l < 2 ^ 32) :
    bytes_to_int64 (int64_to_bytes h l) = (h, l) := by
  rw [int64_to_bytes_arith,
    bytes_to_int64_arith _ _ _ _ _ _ _ _ (by omega) (by omega) (by omega) (by omega) (by omega) (by omega)]
  have hh32 : h < 4294967296 := by
    have : (2 : ℕ) ^ 32 = 4294967296 := by norm_num
    omega
  have hl32 : l < 4294967296 := by
    have : (2 : ℕ) ^ 32 = 4294967296 := by norm_num
    omega
  simp only [Prod.mk.injEq]
  exact ⟨by omega, by omega⟩

theorem bytes_int64_roundtrip (data : List ℕ) (hlen : data.length = 8)
    (hb : ∀ b ∈ data, b < 256) :
    int64_to_bytes (bytes_to_int64 data).1 (bytes_to_int64 data).2 = data := by
  obtain ⟨b0, b1, b2, b3, b4, b5, b6, b7, rfl⟩ := eight_bytes_decompose data hlen
  have H0 : b0 < 256 := hb b0 (by simp)
  have H1 : b1 < 256 := hb b1 (by simp)
  have H2 : b2 < 256 := hb b2 (by simp)
  have H3 : b3 < 256 := hb b3 (by simp)
  have H4 : b4 < 256 := hb b4 (by simp)
  have H5 : b5 < 256 := hb b5 (by simp)
  have H6 : b6 < 256 := hb b6 (by simp)
  have H7 : b7 < 256 := hb b7 (by simp)
  rw [bytes_to_int64_arith _ _ _ _ _ _ _ _ H1 H2 H3 H5 H6 H7]
  rw [int64_to_bytes_arith]
  simp only [List.cons.injEq, and_true]
  refine ⟨by omega, by omega, by omega, by omega, by omega, by omega, by omega, by omega⟩

theorem bytes_to_int64_lt (data : List ℕ) (hlen : data.length = 8)
    (hb : ∀ b ∈ data, b < 256) :
    (bytes_to_int64 data).1 < 2 ^ 32 ∧ (bytes_to_int64 data).2 < 2 ^ 32 := by
  obtain ⟨b0, b1, b2, b3, b4, b5, b6, b7, rfl⟩ := eight_bytes_decompose data hlen
  have H0 : b0 < 256 := hb b0 (by simp)
  have H1 : b1 < 256 := hb b1 (by simp)
  have H2 : b2 < 256 := hb b2 (by simp)
  have H3 : b3 < 256 := hb b3 (by simp)
  have H4 : b4 < 256 := hb b4 (by simp)
  have H5 : b5 < 256 := hb b5 (by simp)
  have H6 : b6 < 256 := hb b6 (by simp)
  have H7 : b7 < 256 := hb b7 (by simp)
  rw [bytes_to_int64_arith _ _ _ _ _ _ _ _ H1 H2 H3 H5 H6 H7]
  have hp : (2 : ℕ) ^ 32 = 4294967296 := by norm_num
  exact ⟨by dsimp only; omega, by dsimp only; omega⟩

theorem f_function_lt (R kh kl : ℕ) : f_function R kh kl < 2 ^ 32 := by
  unfold f_function
  exact (permute_lt 0 _ P (by norm_num [P])).2

theorem foldl_feistel_lt (ks : List (ℕ × ℕ)) :
    ∀ init : ℕ × ℕ, init.1 < 2 ^ 32 → init.2 < 2 ^ 32 →
      (ks.foldl feistel_step init).1 < 2 ^ 32 ∧ (ks.foldl feistel_step init).2 < 2 ^ 32 := by
  induction ks with
  | nil => exact fun init h1 h2 => ⟨h1, h2⟩
  | cons k t ih =>
    intro init h1 h2
    rw [List.foldl_cons]
    exact ih _ h2 (Nat.xor_lt_two_pow h1 (f_function_lt init.2 k.1 k.2))

theorem foldl_feistel_reverse (ks : List (ℕ × ℕ)) :
    ∀ init : ℕ × ℕ,
      ks.reverse.foldl feistel_step
        ((ks.foldl feistel_step init).2, (ks.foldl feistel_step init).1) =
      (init.2, init.1) := by
  induction ks with
  | nil => exact fun init => rfl
  | cons k t ih =>
    intro init
    simp only [List.reverse_cons, List.foldl_append, List.foldl_cons, List.foldl_nil]
    rw [ih (feistel_step init k)]
    unfold feistel_step
    dsimp only
    rw [Nat.xor_cancel_right]

/-- Decrypting an encrypted 8-byte block with the same key restores the
block: the Feistel construction is self-inverse under key-order reversal
for ANY round function and round keys, and `FP` inverts `IP`. -/
theorem block_roundtrip (key block : List ℕ) (hlen : block.length = 8)
    (hb : ∀ b ∈ block, b < 256) :
    des_decrypt_block (des_encrypt_block block key) key = block := by
  have hh0 := bytes_to_int64_lt block hlen hb
  unfold des_encrypt_block des_decrypt_block
  dsimp only
  set rks := generate_round_keys key with hrks
  set h0 := bytes_to_int64 block with hh0def
  set p1 := permute h0.1 h0.2 IP with hp1
  have hp1b : p1.1 < 2 ^ 32 ∧ p1.2 < 2 ^ 32 := permute_lt h0.1 h0.2 IP (by norm_num [IP])
  set LR := rks.foldl feistel_step (p1.1, p1.2) with hLR
  have hLRb : LR.1 < 2 ^ 32 ∧ LR.2 < 2 ^ 32 :=
    foldl_feistel_lt rks (p1.1, p1.2) hp1b.1 hp1b.2
  have hfinb := permute_lt LR.2 LR.1 FP (by norm_num [FP])
  rw [int64_bytes_roundtrip (permute LR.2 LR.1 FP).1 (permute LR.2 LR.1 FP).2 hfinb.1 hfinb.2]
  dsimp only
  rw [permute_FP_then_IP LR.2 LR.1 hLRb.2 hLRb.1]
  dsimp only
  rw [hLR, foldl_feistel_reverse rks (p1.1, p1.2)]
  dsimp only
  rw [hp1, permute_IP_then_FP h0.1 h0.2 hh0.1 hh0.2]
  dsimp only
  rw [hh0def]
  exact bytes_int64_roundtrip block hlen hb

/-! ### Block splitting and framing lemmas -/

theorem chunks8Aux_fuel : ∀ (fuel : ℕ), ∀ (l : List ℕ), l.length ≤ fuel →
    chunks8Aux fuel l = chunks8 l := by
  intro fuel
  induction fuel using Nat.strong_induction_on with
  | _ fuel ih =>
    intro l hl
    match fuel, l with
    | 0, [] => rfl
    | 0, x :: xs => simp at hl
    | f + 1, [] => rfl
    | f + 1, x :: xs =>
      show (x :: xs.take 7) :: chunks8Aux f (xs.drop 7) = chunks8 (x :: xs)
      have hxs : xs.length ≤ f := by
        simp only [List.length_cons] at hl
        omega
      have hdrop : (xs.drop 7).length ≤ xs.length := by
        simp only [List.length_drop]
        omega
      have h1 : chunks8Aux f (xs.drop 7) = chunks8 (xs.drop 7) :=
        ih f (by omega) _ (le_trans hdrop hxs)
      have h2 : chunks8 (x :: xs) = (x :: xs.take 7) :: chunks8Aux xs.length (xs.drop 7) := rfl
      have h3 : chunks8Aux xs.length (xs.drop 7) = chunks8 (xs.drop 7) :=
        ih xs.length (by omega) _ hdrop
      rw [h1, h2, h3]

theorem chunks8_cons8 (b rest : List ℕ) (hb : b.length = 8) :
    chunks8 (b ++ rest) = b :: chunks8 rest := by
  obtain ⟨b0, b1, b2, b3, b4, b5, b6, b7, rfl⟩ := eight_bytes_decompose b hb
  show chunks8 (b0 :: ([b1, b2, b3, b4, b5, b6, b7] ++ rest)) = _
  have hlen : (b0 :: ([b1, b2, b3, b4, b5, b6, b7] ++ rest)).length = rest.length + 8 := by
    simp only [List.length_cons, List.length_append, List.length_nil]
    omega
  unfold chunks8
  rw [hlen]
  show (b0 :: ([b1, b2, b3, b4, b5, b6, b7] ++ rest).take 7) ::
      chunks8Aux (rest.length + 7) (([b1, b2, b3, b4, b5, b6, b7] ++ rest).drop 7) = _
  rw [@List.take_left' ℕ [b1, b2, b3, b4, b5, b6, b7] rest 7 rfl,
    @List.drop_left' ℕ [b1, b2, b3, b4, b5, b6, b7] rest 7 rfl]
  rw [chunks8Aux_fuel (rest.length + 7) rest (by omega)]
  rfl

theorem chunks8_flatten (bls : List (List ℕ)) (hb : ∀ b ∈ bls, b.length = 8) :
    chunks8 bls.flatten = bls := by
  induction bls with
  | nil => rfl
  | cons b t ih =>
    rw [List.flatten_cons, chunks8_cons8 b t.flatten (hb b (by simp))]
    rw [ih (fun c hc => hb c (by simp [hc]))]

theorem chunks8_spec : ∀ (n : ℕ), ∀ (l : List ℕ), l.length = n → n % 8 = 0 →
    (chunks8 l).flatten = l ∧ ∀ c ∈ chunks8 l, c.length = 8 := by
  intro n
  induction n using Nat.strong_induction_on with
  | _ n ih =>
    intro l hl hmod
    rcases Nat.eq_zero_or_pos n with hz | hpos
    · subst hz
      have : l = [] := List.eq_nil_of_length_eq_zero hl
      subst this
      exact ⟨rfl, fun c hc => by simp [chunks8, chunks8Aux] at hc⟩
    · have h8 : 8 ≤ n := by omega
      have htake : (l.take 8).length = 8 := by
        rw [List.length_take]
        omega
      have hsplit : l.take 8 ++ l.drop 8 = l := List.take_append_drop 8 l
      have hdlen : (l.drop 8).length = n - 8 := by
        rw [List.length_drop, hl]
      obtain ⟨hf, hc⟩ := ih (n - 8) (by omega) (l.drop 8) hdlen (by omega)
      have hchunks : chunks8 l = l.take 8 :: chunks8 (l.drop 8) := by
        conv_lhs => rw [← hsplit]
        exact chunks8_cons8 _ _ htake
      constructor
      · rw [hchunks, List.flatten_cons, hf, hsplit]
      · intro c hcmem
        rw [hchunks] at hcmem
        rcases List.mem_cons.mp hcmem with rfl | hmem
        · exact htake
        · exact hc c hmem

theorem flatten_blocks_length (bls : List (List ℕ)) (hb : ∀ b ∈ bls, b.length = 8) :
    bls.flatten.length % 8 = 0 := by
  induction bls with
  | nil => rfl
  | cons b t ih =>
    rw [List.flatten_cons, List.length_append, hb b (by simp)]
    have := ih (fun c hc => hb c (by simp [hc]))
    omega

theorem des_encrypt_block_length (b k : List ℕ) : (des_encrypt_block b k).length = 8 := rfl

theorem des_encrypt_block_bytes (b k : List ℕ) :
    ∀ x ∈ des_encrypt_block b k, x < 256 := by
  intro x hx
  have : des_encrypt_block b k =
      int64_to_bytes (permute ((generate_round_keys k).foldl feistel_step
          ((permute (bytes_to_int64 b).1 (bytes_to_int64 b).2 IP).1,
           (permute (bytes_to_int64 b).1 (bytes_to_int64 b).2 IP).2)).2
        ((generate_round_keys k).foldl feistel_step
          ((permute (bytes_to_int64 b).1 (bytes_to_int64 b).2 IP).1,
           (permute (bytes_to_int64 b).1 (bytes_to_int64 b).2 IP).2)).1 FP).1
        (permute _ _ FP).2 := rfl
  rw [this, int64_to_bytes_arith] at hx
  simp only [List.mem_cons, List.not_mem_nil, or_false] at hx
  rcases hx with rfl | rfl | rfl | rfl | rfl | rfl | rfl | rfl <;> omega

theorem add_padding_length_mod (x : List ℕ) : (add_padding x).length % 8 = 0 := by
  rw [add_padding_eq, List.length_append, List.length_replicate]
  omega

theorem add_padding_bytes (x : List ℕ) (hx : ∀ b ∈ x, b < 256) :
    ∀ b ∈ add_padding x, b < 256 := by
  intro b hb
  rw [add_padding_eq] at hb
  rcases List.mem_append.mp hb with h | h
  · exact hx b h
  · have := List.eq_of_mem_replicate h
    omega

/-! ### Hex codec lemmas -/

theorem hex_digit_val_round : ∀ n, n < 16 → hex_digit_val (hex_digit n) = some n := by decide

theorem except_bind_ok {α β : Type} (a : α) (f : α → Except PyErr β) :
    (Except.ok a : Except PyErr α) >>= f = f a := rfl

theorem except_bind_err {α β : Type} (e : PyErr) (f : α → Except PyErr β) :
    (Except.error e : Except PyErr α) >>= f = .error e := rfl

theorem hex_to_bytes_cons2 (c1 c2 : Char) (rest : List Char) (v : ℕ)
    (hc : py_int16_chunk [c1, c2] = .ok (v : ℤ)) (bs : List ℕ)
    (hrest : hex_to_bytes rest = .ok bs) :
    hex_to_bytes (c1 :: c2 :: rest) = .ok (v :: bs) := by
  show (py_int16_chunk [c1, c2] >>= fun w =>
    if w < 0 then .error .negativeByte
    else hex_to_bytes rest >>= fun bs2 => .ok (w.toNat :: bs2)) = .ok (v :: bs)
  rw [hc, except_bind_ok]
  rw [if_neg (by exact not_lt.mpr (Int.natCast_nonneg v))]
  rw [hrest, except_bind_ok]
  rw [Int.toNat_natCast]

theorem hex_roundtrip (bs : List ℕ) (hb : ∀ b ∈ bs, b < 256) :
    hex_to_bytes (bytes_to_hex bs) = .ok bs := by
  induction bs with
  | nil => rfl
  | cons b t ih =>
    have hb0 : b < 256 := hb b (by simp)
    have hexp : bytes_to_hex (b :: t) =
        hex_digit (b / 16) :: hex_digit (b % 16) :: bytes_to_hex t := rfl
    rw [hexp]
    have h1 : hex_digit_val (hex_digit (b / 16)) = some (b / 16) :=
      hex_digit_val_round _ (by omega)
    have h2 : hex_digit_val (hex_digit (b % 16)) = some (b % 16) :=
      hex_digit_val_round _ (by omega)
    have hchunk : py_int16_chunk [hex_digit (b / 16), hex_digit (b % 16)] = .ok ((b : ℕ) : ℤ) := by
      simp only [py_int16_chunk, h1, h2]
      congr 1
      push_cast
      omega
    exact hex_to_bytes_cons2 _ _ _ b hchunk t (ih fun x hx => hb x (by simp [hx]))

theorem prepare_key_ne (k : List ℕ) (hk : k ≠ []) :
    prepare_key k = .ok ((List.range 8).map fun i => k.getD (i % k.length) 0) := by
  unfold prepare_key
  rw [if_neg hk]

/-- C1: the round-trip property.  For every byte sequence `p` that is
valid UTF-8 (the encoding of a plaintext string) and every non-empty
passphrase byte sequence `k`, decrypting the encryption of `p` under `k`
returns exactly `p`.  This holds even though the cipher is not DES
(C2-C5): the Feistel loop inverts itself under key-order reversal for
any round function, `FP` inverts `IP`, and the padding and hex codecs
round-trip. -/
theorem c1_round_trip (p k : List ℕ) (hp : ∀ b ∈ p, b < 256)
    (hu : utf8_valid p = true) (hk : k ≠ []) :
    (des_encrypt p k).bind (fun ct => des_decrypt ct k) = .ok p := by
  have hkey := prepare_key_ne k hk
  set key := (List.range 8).map (fun i => k.getD (i % k.length) 0) with hkeydef
  have hdlen := add_padding_length_mod p
  have hdb := add_padding_bytes p hp
  obtain ⟨hflat, hc8⟩ := chunks8_spec (add_padding p).length (add_padding p) rfl hdlen
  set blocks := chunks8 (add_padding p) with hblocks
  set enc := (blocks.map fun b => des_encrypt_block b key).flatten with hencdef
  have hencblocks : ∀ c ∈ blocks.map (fun b => des_encrypt_block b key), c.length = 8 := by
    intro c hc
    obtain ⟨b, _, rfl⟩ := List.mem_map.mp hc
    exact des_encrypt_block_length b key
  have hencb : ∀ x ∈ enc, x < 256 := by
    intro x hx
    rw [hencdef] at hx
    obtain ⟨c, hcmem, hxc⟩ := List.mem_flatten.mp hx
    obtain ⟨b, _, rfl⟩ := List.mem_map.mp hcmem
    exact des_encrypt_block_bytes b key x hxc
  have henclen : enc.length % 8 = 0 := by
    rw [hencdef]
    exact flatten_blocks_length _ hencblocks
  have hencodes : des_encrypt p k = .ok (bytes_to_hex enc) := by
    unfold des_encrypt
    rw [hkey, except_bind_ok]
  rw [hencodes]
  show des_decrypt (bytes_to_hex enc) k = .ok p
  unfold des_decrypt
  rw [hkey, except_bind_ok, hex_roundtrip enc hencb, except_bind_ok,
    if_neg (by omega : ¬enc.length % 8 ≠ 0)]
  rw [hencdef, chunks8_flatten _ hencblocks, List.map_map]
  have hmapeq : blocks.map ((fun b => des_decrypt_block b key) ∘ fun b => des_encrypt_block b key) =
      blocks := by
    have h1 : ∀ b ∈ blocks,
        ((fun b => des_decrypt_block b key) ∘ fun b => des_encrypt_block b key) b = id b := by
      intro b hbmem
      have hlen8 : b.length = 8 := hc8 b hbmem
      have hbb : ∀ x ∈ b, x < 256 := by
        intro x hx
        apply hdb
        rw [← hflat]
        exact List.mem_flatten.mpr ⟨b, hbmem, hx⟩
      exact block_roundtrip key b hlen8 hbb
    rw [List.map_congr_left h1, List.map_id]
  rw [hmapeq, hflat]
  dsimp only
  rw [pad_roundtrip p, except_bind_ok, hu]
  rw [if_pos rfl]

/-- C1 witness: the round-trip at the plaintext bytes of `"12.5"` and
the passphrase bytes of `"MySecretKey123"` (the pair used by the
self-test in the repository). -/
theorem c1_round_trip_witness :
    (des_encrypt [49, 50, 46, 53]
        [77, 121, 83, 101, 99, 114, 101, 116, 75, 101, 121, 49, 50, 51]).bind
      (fun ct => des_decrypt ct
        [77, 121, 83, 101, 99, 114, 101, 116, 75, 101, 121, 49, 50, 51]) =
    .ok [49, 50, 46, 53] :=
  c1_round_trip [49, 50, 46, 53] [77, 121, 83, 101, 99, 114, 101, 116, 75, 101, 121, 49, 50, 51]
    (by decide) (by decide) (by decide)

/-- C7 amended: `des_decrypt` fails with the invalid-ciphertext-length
error exactly for a NONZERO decoded byte length that is not a multiple
of 8; zero decoded bytes (the empty hex string) pass the check and
decrypt to the empty plaintext. -/
theorem c7_invalid_length_amended :
    (∀ (ct : List Char) (k bs : List ℕ), k ≠ [] → hex_to_bytes ct = .ok bs →
      bs.length % 8 ≠ 0 → des_decrypt ct k = .error .invalidCiphertextLength) ∧
    (∀ k : List ℕ, k ≠ [] → des_decrypt [] k = .ok []) := by
  constructor
  · intro ct k bs hk hhex hlen
    unfold des_decrypt
    rw [prepare_key_ne k hk, except_bind_ok, hhex, except_bind_ok, if_pos hlen]
  · intro k hk
    unfold des_decrypt
    rw [prepare_key_ne k hk, except_bind_ok]
    rfl

/-- C7 amended witness: two decoded bytes are rejected as an invalid
length, and the empty ciphertext decrypts to the empty plaintext. -/
theorem c7_invalid_length_amended_witness :
    des_decrypt ['0', '0'] [65] = .error .invalidCiphertextLength ∧
    des_decrypt [] [66] = .ok [] :=
  ⟨c7_invalid_length_amended.1 ['0', '0'] [65] [0] (by decide) rfl (by decide),
   c7_invalid_length_amended.2 [66] (by decide)⟩

theorem py_int16_chunk1_good (c : Char) (v : ℤ) (h : py_int16_chunk [c] = .ok v) :
    good_hex_char c = true := by
  simp only [py_int16_chunk] at h
  cases hv : hex_digit_val c with
  | none =>
    rw [hv] at h
    simp at h
  | some w =>
    simp [good_hex_char, hv]

theorem py_int16_chunk2_good (c1 c2 : Char) (v : ℤ) (h : py_int16_chunk [c1, c2] = .ok v) :
    good_hex_char c1 = true ∧ good_hex_char c2 = true := by
  simp only [py_int16_chunk] at h
  cases hv1 : hex_digit_val c1 with
  | some w1 =>
    cases hv2 : hex_digit_val c2 with
    | some w2 => simp [good_hex_char, hv1, hv2]
    | none =>
      rw [hv1, hv2] at h
      simp only [] at h
      split at h
      · refine ⟨by simp [good_hex_char, hv1], ?_⟩
        rename_i hsp
        simp [good_hex_char, hsp]
      · simp at h
  | none =>
    cases hv2 : hex_digit_val c2 with
    | some w2 =>
      rw [hv1, hv2] at h
      simp only [] at h
      split at h
      · rename_i hplus
        refine ⟨by simp [good_hex_char, hplus], by simp [good_hex_char, hv2]⟩
      · split at h
        · rename_i hminus
          refine ⟨by simp [good_hex_char, hminus], by simp [good_hex_char, hv2]⟩
        · split at h
          · rename_i hsp
            refine ⟨by simp [good_hex_char, hsp], by simp [good_hex_char, hv2]⟩
          · simp at h
    | none =>
      rw [hv1, hv2] at h
      simp at h

theorem hex_to_bytes_error_of_bad : ∀ (ct : List Char),
    (∃ c ∈ ct, good_hex_char c = false) → ∃ e, hex_to_bytes ct = .error e
  | [] => by
      rintro ⟨c, hc, _⟩
      cases hc
  | [c] => by
      rintro ⟨c2, hc2, hbad⟩
      have hc2c : c2 = c := by simpa using hc2
      rw [hc2c] at hbad
      cases hchunk : py_int16_chunk [c] with
      | error e =>
        refine ⟨e, ?_⟩
        show (py_int16_chunk [c] >>= fun v =>
          if v < 0 then .error .negativeByte else .ok [v.toNat]) = _
        rw [hchunk, except_bind_err]
      | ok v =>
        rw [py_int16_chunk1_good c v hchunk] at hbad
        cases hbad
  | c1 :: c2 :: rest => by
      rintro ⟨c, hc, hbad⟩
      cases hchunk : py_int16_chunk [c1, c2] with
      | error e =>
        refine ⟨e, ?_⟩
        show (py_int16_chunk [c1, c2] >>= fun v =>
          if v < 0 then .error .negativeByte
          else hex_to_bytes rest >>= fun bs => .ok (v.toNat :: bs)) = _
        rw [hchunk, except_bind_err]
      | ok v =>
        obtain ⟨hg1, hg2⟩ := py_int16_chunk2_good c1 c2 v hchunk
        have hcrest : c ∈ rest := by
          rcases List.mem_cons.mp hc with rfl | hc2mem
          · rw [hg1] at hbad
            cases hbad
          · rcases List.mem_cons.mp hc2mem with rfl | hr
            · rw [hg2] at hbad
              cases hbad
            · exact hr
        obtain ⟨e, he⟩ := hex_to_bytes_error_of_bad rest ⟨c, hcrest, hbad⟩
        by_cases hneg : v < 0
        · refine ⟨.negativeByte, ?_⟩
          show (py_int16_chunk [c1, c2] >>= fun v =>
            if v < 0 then .error .negativeByte
            else hex_to_bytes rest >>= fun bs => .ok (v.toNat :: bs)) = _
          rw [hchunk, except_bind_ok, if_pos hneg]
        · refine ⟨e, ?_⟩
          show (py_int16_chunk [c1, c2] >>= fun v =>
            if v < 0 then .error .negativeByte
            else hex_to_bytes rest >>= fun bs => .ok (v.toNat :: bs)) = _
          rw [hchunk, except_bind_ok, if_neg hneg, he, except_bind_err]

/-- C8 amended: decryption DOES fail on every ASCII ciphertext
containing a character that no `int(chunk, 16)` call can accept (not a
hex digit, sign, or whitespace); the rejection of odd-length inputs
claimed by the spec does not hold (see the counterexample), because the
final lone character parses as a one-digit byte.  The ASCII hypothesis
marks the modelling boundary: CPython also accepts some non-ASCII
digit and whitespace codepoints, which the embedding does not model. -/
theorem c8_malformed_amended (ct : List Char) (k : List ℕ)
    (_hascii : ∀ c ∈ ct, c.toNat < 128)
    (hbad : ∃ c ∈ ct, good_hex_char c = false) :
    ∃ e, des_decrypt ct k = .error e := by
  by_cases hk : k = []
  · subst hk
    exact ⟨.zeroDivisionError, rfl⟩
  · obtain ⟨e, he⟩ := hex_to_bytes_error_of_bad ct hbad
    refine ⟨e, ?_⟩
    unfold des_decrypt
    rw [prepare_key_ne k hk, except_bind_ok, he, except_bind_err]

/-- C8 amended witness: the single non-hex character G is rejected. -/
theorem c8_malformed_amended_witness :
    ∃ e, des_decrypt ['G'] [65] = .error e :=
  c8_malformed_amended ['G'] [65] (by decide) ⟨'G', by decide, by decide⟩

end DesCrypto
